import Mathlib

/- A shallow embedding of src/rullo.py, a solver for Rullo boards.
   Machine model: Python integers are unbounded and are embedded as Int;
   Python lists are embedded as Lean lists; an IndexError is embedded as the
   value none of an Option result. -/

namespace Rullo

abbrev Row := List Int
abbrev Grid := List Row

/-- Embeds vsum (src/rullo.py lines 8-12): sums board[row][col] over every row
in order; none models the IndexError raised when some row has no column col. -/
def vsum (board : Grid) (col : Nat) : Option Int :=
  board.foldl
    (fun acc row =>
      match acc, row.get? col with
      | some s, some x => some (s + x)
      | _, _ => none)
    (some 0)

/-- Embeds the column-validation loop of explore (src/rullo.py lines 17-21):
starting at column i with cnt indices still to visit, compare the vsum of each
column against vert; stop with false at the first mismatch (the break), with
none modelling an IndexError in vsum or in vert[i]. -/
def checkColsFrom (solution : Grid) (vert : Row) : Nat → Nat → Option Bool
  | _, 0 => some true
  | i, cnt + 1 =>
    match vsum solution i with
    | none => none
    | some s =>
      match vert.get? i with
      | none => none
      | some v => if s = v then checkColsFrom solution vert (i + 1) cnt else some false

/-- The full column validation performed by explore at a leaf (src/rullo.py
lines 16-21): the loop index i runs over range(len(solution)) — that is the
number of rows of the solution, not its number of columns. -/
def checkCols (solution : Grid) (vert : Row) : Option Bool :=
  checkColsFrom solution vert 0 solution.length

/-- Embeds the row-building loop of explore (src/rullo.py lines 27-31): with
current mask value k and position j, append 0 when the low bit of k is clear
and brow[j] when it is set, then shift k right; none models the IndexError
when a kept position j has no entry in brow. -/
def buildRowFrom (brow : Row) : Nat → Nat → Nat → Option Row
  | _, _, 0 => some []
  | k, j, cnt + 1 =>
    match (if k % 2 = 0 then some (0 : Int) else brow.get? j) with
    | none => none
    | some x =>
      match buildRowFrom brow (k / 2) (j + 1) cnt with
      | none => none
      | some rest => some (x :: rest)

/-- The masked row built from mask i over the first n positions of brow
(src/rullo.py lines 27-31, with k starting at i and j at 0). -/
def buildRow (brow : Row) (i n : Nat) : Option Row :=
  buildRowFrom brow i 0 n

/-- Embeds the Python slot assignment solution[r] = row (src/rullo.py line 34):
none models the IndexError raised when slot r does not exist. -/
def setAt (sol : Grid) (r : Nat) (row : Row) : Option Grid :=
  if r < sol.length then some (sol.set r row) else none

/-- The variables explore reaches through its parameters: the board, the two
target vectors, and the solution list. The only assignment the search ever
performs is to a slot of solution (src/rullo.py line 34). -/
structure ExpSt where
  board : Grid
  horz : Row
  vert : Row
  solution : Grid
deriving Repr, DecidableEq

/-- One iteration of the mask loop of explore at depth r (src/rullo.py lines
27-36): build the masked row for mask i; when its sum meets horz[r], store it
into slot r and run the continuation step (the recursive explore call at depth
r + 1); otherwise leave the state unchanged and yield no report. -/
def loopStep (step : ExpSt → List Grid × Option ExpSt) (r n i : Nat) (st : ExpSt) :
    List Grid × Option ExpSt :=
  match buildRow (st.board.getD r []) i n with
  | none => ([], none)
  | some row =>
    match st.horz.get? r with
    | none => ([], none)
    | some h =>
      if row.sum = h then
        match setAt st.solution r row with
        | none => ([], none)
        | some sol1 => step ⟨st.board, st.horz, st.vert, sol1⟩
      else ([], some st)

/-- The mask loop of explore (src/rullo.py line 26): run loopStep on each mask
in order, threading the solution state through; a none result abandons the
remaining masks while keeping the reports produced so far, exactly as a
propagating Python exception leaves the already-printed lines behind. -/
def exploreLoop (step : ExpSt → List Grid × Option ExpSt) (r n : Nat) :
    List Nat → ExpSt → List Grid × Option ExpSt
  | [], st => ([], some st)
  | i :: rest, st =>
    match loopStep step r n i st with
    | (reps, none) => (reps, none)
    | (reps, some st2) =>
      (reps ++ (exploreLoop step r n rest st2).1, (exploreLoop step r n rest st2).2)

/-- Embeds explore (src/rullo.py lines 14-36), with the recursion depth tracked
through the fuel board.length - r, so that fuel 0 is exactly the leaf test
r >= len(board). At a leaf, validate the columns and report the current
solution (the print of line 24) when they all match; otherwise run the mask
loop over range(1 << n), the continuation being the call at depth r + 1. The
first component collects the reported solutions in order; the second is the
final state of the variables, none when an IndexError escapes. -/
def exploreFuel (n : Nat) : Nat → Nat → ExpSt → List Grid × Option ExpSt
  | 0, _, st =>
    match checkCols st.solution st.vert with
    | none => ([], none)
    | some true => ([st.solution], some st)
    | some false => ([], some st)
  | fuel + 1, r, st => exploreLoop (exploreFuel n fuel (r + 1)) r n (List.range (2 ^ n)) st

/-- explore (src/rullo.py lines 14-36) on the variables board, solution, horz,
vert, entered at depth r with row width n. -/
def explore (board solution : Grid) (r n : Nat) (horz vert : Row) :
    List Grid × Option ExpSt :=
  exploreFuel n (board.length - r) r ⟨board, horz, vert, solution⟩

/-- Well-formed board in the sense of the claims: m >= 1 rows of uniform width
n >= 1 where n = len(vert), len(horz) = m, and every entry non-negative. -/
def WellFormed (board : Grid) (horz vert : Row) : Prop :=
  0 < board.length ∧ 0 < vert.length ∧
  (∀ row ∈ board, row.length = vert.length) ∧
  horz.length = board.length ∧
  (∀ row ∈ board, ∀ x ∈ row, 0 ≤ x) ∧
  (∀ x ∈ horz, 0 ≤ x) ∧ (∀ x ∈ vert, 0 ≤ x)

/-- The RowEnumerator carved out of explore (src/rullo.py lines 26-33): the
candidate selections tried for one row, generated by running the masks
0 .. 2 ^ n - 1 in increasing order through the row-building loop and keeping
those whose masked row sums to the row target. -/
def rowCandidates (brow : Row) (n : Nat) (target : Int) : List Row :=
  (List.range (2 ^ n)).filterMap (fun i =>
    match buildRow brow i n with
    | none => none
    | some row => if row.sum = target then some row else none)

/-- Follows the spec's words on mask semantics (section 4.1): the selection for
mask i keeps brow[j] at each position j whose bit j of i is 1 and holds 0 at
every other position. Used to compare the code's row-building loop against the
specified semantics. -/
def maskSpec (brow : Row) (i n : Nat) : Row :=
  (List.range n).map (fun j => if i.testBit j then brow.getD j 0 else 0)

/-- Follows the spec's words (section 8, Exhaustiveness): the grid selected by
a single global mask over all n * m cells, cell (r, j) being kept exactly when
bit r * n + j of the mask is set. -/
def gridOfMask (board : Grid) (n mask : Nat) : Grid :=
  (List.range board.length).map (fun r =>
    (List.range n).map (fun j =>
      if mask.testBit (r * n + j) then (board.getD r []).getD j 0 else 0))

/-- The sum of column c of a grid, with absent entries read as 0; used only by
the brute-force reference below. -/
def colSum (g : Grid) (c : Nat) : Int :=
  (g.map (fun row => row.getD c 0)).sum

/-- Follows the spec's words (section 8, Exhaustiveness): a grid is valid when
every row sum meets horz and every one of the n column sums meets vert. -/
def validGrid (board : Grid) (horz vert : Row) (n : Nat) (g : Grid) : Bool :=
  ((List.range board.length).all (fun r => (g.getD r []).sum == horz.getD r 0)) &&
  ((List.range n).all (fun c => colSum g c == vert.getD c 0))

/-- Follows the spec's words (section 8, Exhaustiveness): the brute-force
reference checks each of the 2 ^ (n * m) global cell-selection combinations
independently against the row and column targets and collects the valid ones. -/
def bruteForce (board : Grid) (horz vert : Row) (n : Nat) : List Grid :=
  (List.range (2 ^ (n * board.length))).filterMap (fun mask =>
    let g := gridOfMask board n mask
    if validGrid board horz vert n g then some g else none)

/-- Embeds the Python list.pop() used by solve (src/rullo.py lines 41 and 44):
returns the list without its last element together with that element, or none
(IndexError) on an empty list. -/
def pyPop (l : List α) : Option (List α × α) :=
  match l.getLast? with
  | none => none
  | some x => some (l.dropLast, x)

/-- What a run of solve leaves behind: the caller's board object after the
pops, the extracted target vectors, the reported solutions in print order, and
whether explore returned normally (false when an IndexError escaped it). -/
structure SolveOut where
  boardAfter : Grid
  horz : Row
  vert : Row
  reports : List Grid
  completed : Bool
deriving Repr, DecidableEq

/-- Embeds solve (src/rullo.py lines 38-47): pop the last row of board as the
vertical sums, pop the last element of each remaining row as the horizontal
sums, reset the global solution counter, and run explore from row 0 with
n = len(board[0]) and with solution = board[:], a copy of the (popped) board
whose value equals the popped board itself. The result is none when an
IndexError is raised before explore starts (pop on an empty list, or
board[0] on an empty board). -/
def solve (b : Grid) : Option SolveOut :=
  (pyPop b).bind fun popped =>
    (popped.1.mapM pyPop).bind fun pairs =>
      ((pairs.map Prod.fst).get? 0).bind fun row0 =>
        some ⟨pairs.map Prod.fst, pairs.map Prod.snd, popped.2,
          (explore (pairs.map Prod.fst) (pairs.map Prod.fst) 0 row0.length
            (pairs.map Prod.snd) popped.2).1,
          (explore (pairs.map Prod.fst) (pairs.map Prod.fst) 0 row0.length
            (pairs.map Prod.snd) popped.2).2.isSome⟩

/-- The observable output stream of solve: the reported solutions paired with
the printed numbering, which restarts at 1 because solve resets the global
counter (src/rullo.py lines 23-24 and 46). -/
def solveNumbered (b : Grid) : Option (List (Nat × Grid)) :=
  (solve b).map (fun out => out.reports.enum.map (fun p => (p.1 + 1, p.2)))

/-! #### Helper lemmas -/

/-- The row-building loop computes, position by position, the masked row the
spec describes: position t of the result is brow[j + t] when bit t of the
running mask k is set and 0 otherwise. -/
theorem buildRowFrom_spec (brow : Row) (cnt : Nat) :
    ∀ (k j : Nat), j + cnt ≤ brow.length →
      buildRowFrom brow k j cnt =
        some ((List.range cnt).map
          (fun t => if k.testBit t then brow.getD (j + t) 0 else 0)) := by
  induction cnt with
  | zero => intro k j _; simp [buildRowFrom]
  | succ cnt ih =>
    intro k j h
    have hj : j < brow.length := by omega
    have hx : brow.get? j = some (brow.getD j 0) := by
      rw [List.get?_eq_getElem?, List.getD_eq_getElem?_getD, List.getElem?_eq_getElem hj]
      rfl
    have htail := ih (k / 2) (j + 1) (by omega)
    rw [List.range_succ_eq_map, List.map_cons, List.map_map]
    simp only [buildRowFrom, htail]
    rcases Nat.mod_two_eq_zero_or_one k with hk | hk
    · have hb : k.testBit 0 = false := by simp [Nat.testBit_zero, hk]
      simp only [hk, if_pos rfl, hb, Bool.false_eq_true, if_false]
      refine congrArg some (congrArg₂ List.cons rfl ?_)
      refine List.map_congr_left (fun t _ => ?_)
      simp [Function.comp, Nat.testBit_add_one, Nat.add_assoc, Nat.add_comm 1 t]
    · have hb : k.testBit 0 = true := by simp [Nat.testBit_zero, hk]
      have hk0 : ¬ k % 2 = 0 := by omega
      simp only [hk0, if_false, hx, hb, if_true]
      refine congrArg some (congrArg₂ List.cons (by simp) ?_)
      refine List.map_congr_left (fun t _ => ?_)
      simp [Function.comp, Nat.testBit_add_one, Nat.add_assoc, Nat.add_comm 1 t]

/-- When the row is at least n wide, the code's masked row for mask i is
exactly the spec's masked row. -/
theorem buildRow_spec (brow : Row) (i n : Nat) (h : n ≤ brow.length) :
    buildRow brow i n = some (maskSpec brow i n) := by
  rw [buildRow, buildRowFrom_spec brow n i 0 (by omega), maskSpec]
  simp

/-- Reading a list at an index through getD only depends on its get? view. -/
theorem getD_congr (l l2 : List α) (i : Nat) (d : α) (h : l2.get? i = l.get? i) :
    l2.getD i d = l.getD i d := by
  rw [List.getD_eq_getElem?_getD, List.getD_eq_getElem?_getD,
    ← List.get?_eq_getElem?, ← List.get?_eq_getElem?, h]

/-- getD agrees with a successful get?. -/
theorem getD_of_get? (l : List α) (i : Nat) (x d : α) (h : l.get? i = some x) :
    l.getD i d = x := by
  rw [List.getD_eq_getElem?_getD, ← List.get?_eq_getElem?, h]
  rfl

/-- What a (possibly deeper) stretch of the search preserves about the state:
the board and both target vectors are untouched, and the solution keeps its
length and each of its slots below r. -/
def StPres (r : Nat) (st st2 : ExpSt) : Prop :=
  st2.board = st.board ∧ st2.horz = st.horz ∧ st2.vert = st.vert ∧
  st2.solution.length = st.solution.length ∧
  ∀ j, j < r → st2.solution.get? j = st.solution.get? j

theorem StPres.refl (r : Nat) (st : ExpSt) : StPres r st st :=
  ⟨rfl, rfl, rfl, rfl, fun _ _ => rfl⟩

theorem StPres.trans {r : Nat} {a b c : ExpSt} (h1 : StPres r a b) (h2 : StPres r b c) :
    StPres r a c :=
  ⟨h2.1.trans h1.1, h2.2.1.trans h1.2.1, h2.2.2.1.trans h1.2.2.1,
    h2.2.2.2.1.trans h1.2.2.2.1,
    fun j hj => (h2.2.2.2.2 j hj).trans (h1.2.2.2.2 j hj)⟩

theorem StPres.mono {r r2 : Nat} {a b : ExpSt} (h : StPres r a b) (hr : r2 ≤ r) :
    StPres r2 a b :=
  ⟨h.1, h.2.1, h.2.2.1, h.2.2.2.1, fun j hj => h.2.2.2.2 j (by omega)⟩

/-- A single mask iteration at depth r preserves the state below r, provided
the continuation (the search below depth r) preserves it below r + 1. -/
theorem loopStep_state (step : ExpSt → List Grid × Option ExpSt) (r n i : Nat)
    (hstep : ∀ st st2, (step st).2 = some st2 → StPres (r + 1) st st2)
    (st st2 : ExpSt) (h : (loopStep step r n i st).2 = some st2) :
    StPres r st st2 := by
  rw [loopStep] at h
  split at h
  · simp at h
  · rename_i row hbr
    split at h
    · simp at h
    · rename_i hh hhr
      split at h
      · rename_i hs
        split at h
        · simp at h
        · rename_i sol1 hset
          rw [setAt] at hset
          split at hset
          · rename_i hr
            have hsol1 : sol1 = st.solution.set r row := by
              cases hset; rfl
            have hmid : StPres r st ⟨st.board, st.horz, st.vert, sol1⟩ := by
              refine ⟨rfl, rfl, rfl, ?_, fun j hj => ?_⟩
              · simp [hsol1]
              · simp only [hsol1]
                exact List.get?_set_ne row st.solution (by omega)
            exact hmid.trans
              ((hstep ⟨st.board, st.horz, st.vert, sol1⟩ st2 h).mono (by omega))
          · cases hset
      · cases h
        exact StPres.refl r st

/-- The whole mask loop at depth r preserves the state below r, provided the
continuation preserves it below r + 1. -/
theorem exploreLoop_state (step : ExpSt → List Grid × Option ExpSt) (r n : Nat)
    (hstep : ∀ st st2, (step st).2 = some st2 → StPres (r + 1) st st2) :
    ∀ (masks : List Nat) (st st2 : ExpSt),
      (exploreLoop step r n masks st).2 = some st2 → StPres r st st2 := by
  intro masks
  induction masks with
  | nil =>
    intro st st2 h
    rw [exploreLoop] at h
    cases h
    exact StPres.refl r st
  | cons i rest ih =>
    intro st st2 h
    rw [exploreLoop] at h
    split at h
    · simp at h
    · rename_i reps stm hls
      simp only at h
      exact (loopStep_state step r n i hstep st stm (by rw [hls])).trans (ih stm st2 h)

/-- The search from depth r preserves the state below r: the board and target
vectors are untouched, the solution keeps its length and its slots below r. -/
theorem exploreFuel_state (n : Nat) :
    ∀ (fuel r : Nat) (st st2 : ExpSt),
      (exploreFuel n fuel r st).2 = some st2 → StPres r st st2 := by
  intro fuel
  induction fuel with
  | zero =>
    intro r st st2 h
    rw [exploreFuel] at h
    split at h <;> (cases h; try exact StPres.refl r st)
  | succ fuel ih =>
    intro r st st2 h
    rw [exploreFuel] at h
    exact exploreLoop_state (exploreFuel n fuel (r + 1)) r n
      (fun a b hb => ih (r + 1) a b hb) (List.range (2 ^ n)) st st2 h

/-- The selection invariant of the spec for one filled row slot: slot r holds
a list of length n whose entry j is either 0 or board[r][j] and whose entries
sum to horz[r]. -/
def SlotInv (board : Grid) (horz : Row) (n r : Nat) (row : Row) : Prop :=
  row.length = n ∧
  (∀ j, j < n → row.getD j 0 = 0 ∨ row.getD j 0 = (board.getD r []).getD j 0) ∧
  row.sum = horz.getD r 0

/-- The slots filled so far on the active path, those below r, all satisfy the
selection invariant. -/
def LowInv (bd : Grid) (hz : Row) (n r : Nat) (sol : Grid) : Prop :=
  ∀ i, i < r → SlotInv bd hz n i (sol.getD i [])

/-- A row the building loop completes without error has one entry per visited
position, each entry being 0 or the row value at its position. -/
theorem buildRowFrom_slot (brow : Row) :
    ∀ (cnt k j : Nat) (out : Row), buildRowFrom brow k j cnt = some out →
      out.length = cnt ∧
      ∀ t, t < cnt → out.getD t 0 = 0 ∨ out.getD t 0 = brow.getD (j + t) 0 := by
  intro cnt
  induction cnt with
  | zero =>
    intro k j out h
    rw [buildRowFrom] at h
    cases h
    exact ⟨rfl, fun t ht => absurd ht (by omega)⟩
  | succ cnt ih =>
    intro k j out h
    rw [buildRowFrom] at h
    split at h
    · simp at h
    · rename_i x hx
      split at h
      · simp at h
      · rename_i rest hrest
        cases h
        have htail := ih (k / 2) (j + 1) rest hrest
        refine ⟨by simpa using htail.1, fun t ht => ?_⟩
        cases t with
        | zero =>
          simp only [List.getD_cons_zero]
          by_cases hk : k % 2 = 0
          · rw [if_pos hk] at hx
            cases hx
            exact Or.inl rfl
          · rw [if_neg hk] at hx
            exact Or.inr (by rw [Nat.add_zero, getD_of_get? brow j x 0 hx])
        | succ t =>
          simp only [List.getD_cons_succ]
          have := htail.2 t (by omega)
          rcases this with h0 | h1
          · exact Or.inl h0
          · exact Or.inr (by rw [h1]; congr 1; omega)

/-- The masked row for any mask, when built without error, has length n and
each entry 0 or the corresponding row value. -/
theorem buildRow_slot (brow : Row) (i n : Nat) (row : Row)
    (h : buildRow brow i n = some row) :
    row.length = n ∧ ∀ j, j < n → row.getD j 0 = 0 ∨ row.getD j 0 = brow.getD j 0 := by
  have hs := buildRowFrom_slot brow n i 0 row h
  exact ⟨hs.1, fun j hj => by simpa using hs.2 j hj⟩

/-- A single mask iteration only reports solutions whose slots all satisfy the
selection invariant, provided the continuation does so from invariant states
filled below r + 1. -/
theorem loopStep_inv (step : ExpSt → List Grid × Option ExpSt) (r n i : Nat)
    (bd : Grid) (hz : Row)
    (hstepInv : ∀ st, st.board = bd → st.horz = hz → LowInv bd hz n (r + 1) st.solution →
      ∀ s ∈ (step st).1, ∀ q, q < bd.length → SlotInv bd hz n q (s.getD q []))
    (st : ExpSt) (hbd : st.board = bd) (hhz : st.horz = hz)
    (hlow : LowInv bd hz n r st.solution) :
    ∀ s ∈ (loopStep step r n i st).1, ∀ q, q < bd.length → SlotInv bd hz n q (s.getD q []) := by
  rw [loopStep]
  split
  · intro s hs; simp at hs
  · rename_i row hbr
    split
    · intro s hs; simp at hs
    · rename_i hh hhr
      split
      · rename_i hsum
        split
        · intro s hs; simp at hs
        · rename_i sol1 hset
          rw [setAt] at hset
          split at hset
          · rename_i hr
            have hsol1 : sol1 = st.solution.set r row := by cases hset; rfl
            refine hstepInv ⟨st.board, st.horz, st.vert, sol1⟩ hbd hhz ?_
            intro q hq
            rcases Nat.lt_or_ge q r with hqr | hqr
            · have hpres : sol1.get? q = st.solution.get? q := by
                rw [hsol1]
                exact List.get?_set_ne row st.solution (by omega)
              have : sol1.getD q [] = st.solution.getD q [] :=
                getD_congr st.solution sol1 q [] hpres
              rw [ExpSt.solution, this]
              exact hlow q hqr
            · have hqr2 : q = r := by omega
              subst hqr2
              have hget : sol1.get? q = some row := by
                rw [hsol1]
                exact List.get?_set_eq_of_lt row hr
              have hrow : sol1.getD q [] = row := getD_of_get? sol1 q row [] hget
              rw [ExpSt.solution, hrow]
              have hb := buildRow_slot (st.board.getD q []) i n row hbr
              refine ⟨hb.1, ?_, ?_⟩
              · intro j hj
                rcases hb.2 j hj with h0 | h1
                · exact Or.inl h0
                · rw [hbd] at h1
                  exact Or.inr h1
              · rw [hsum]
                rw [hhz] at hhr
                exact (getD_of_get? hz q hh 0 hhr).symm
          · cases hset
      · intro s hs; simp at hs

/-- The whole mask loop at depth r only reports solutions whose slots all
satisfy the selection invariant. -/
theorem exploreLoop_inv (step : ExpSt → List Grid × Option ExpSt) (r n : Nat)
    (bd : Grid) (hz : Row)
    (hstepState : ∀ st st2, (step st).2 = some st2 → StPres (r + 1) st st2)
    (hstepInv : ∀ st, st.board = bd → st.horz = hz → LowInv bd hz n (r + 1) st.solution →
      ∀ s ∈ (step st).1, ∀ q, q < bd.length → SlotInv bd hz n q (s.getD q [])) :
    ∀ (masks : List Nat) (st : ExpSt), st.board = bd → st.horz = hz →
      LowInv bd hz n r st.solution →
      ∀ s ∈ (exploreLoop step r n masks st).1,
        ∀ q, q < bd.length → SlotInv bd hz n q (s.getD q []) := by
  intro masks
  induction masks with
  | nil =>
    intro st _ _ _ s hs
    rw [exploreLoop] at hs
    simp at hs
  | cons i rest ih =>
    intro st hbd hhz hlow s hs
    rw [exploreLoop] at hs
    split at hs
    · rename_i reps hls
      have hone := loopStep_inv step r n i bd hz hstepInv st hbd hhz hlow
      rw [hls] at hone
      exact hone s hs
    · rename_i reps stm hls
      rw [List.mem_append] at hs
      rcases hs with hs | hs
      · have hone := loopStep_inv step r n i bd hz hstepInv st hbd hhz hlow
        rw [hls] at hone
        exact hone s hs
      · have hpres : StPres r st stm :=
          loopStep_state step r n i hstepState st stm (by rw [hls])
        refine ih stm (hpres.1.trans hbd) (hpres.2.1.trans hhz) ?_ s hs
        intro q hq
        have heq : stm.solution.getD q [] = st.solution.getD q [] :=
          getD_congr st.solution stm.solution q [] (hpres.2.2.2.2 q hq)
        rw [heq]
        exact hlow q hq

/-- The search from depth r, entered with enough fuel to cover the remaining
rows and with its filled slots satisfying the selection invariant, only
reports solutions all of whose slots satisfy the selection invariant. -/
theorem exploreFuel_inv (n : Nat) :
    ∀ (fuel r : Nat) (st : ExpSt) (bd : Grid) (hz : Row),
      st.board = bd → st.horz = hz → bd.length ≤ fuel + r →
      LowInv bd hz n r st.solution →
      ∀ s ∈ (exploreFuel n fuel r st).1,
        ∀ q, q < bd.length → SlotInv bd hz n q (s.getD q []) := by
  intro fuel
  induction fuel with
  | zero =>
    intro r st bd hz hbd hhz hlen hlow s hs
    rw [exploreFuel] at hs
    split at hs
    · simp at hs
    · rw [List.mem_singleton] at hs
      subst hs
      intro q hq
      exact hlow q (by omega)
    · simp at hs
  | succ fuel ih =>
    intro r st bd hz hbd hhz hlen hlow s hs
    rw [exploreFuel] at hs
    exact exploreLoop_inv (exploreFuel n fuel (r + 1)) r n bd hz
      (fun a b hb => exploreFuel_state n fuel (r + 1) a b hb)
      (fun st1 hb1 hh1 hlow1 => ih (r + 1) st1 bd hz hb1 hh1 (by omega) hlow1)
      (List.range (2 ^ n)) st hbd hhz hlow s hs

/-- Collecting through an if-guard over a mapped list is filtering the mapped
list. -/
theorem filterMap_guard (f : Nat → Row) (p : Row → Bool) :
    ∀ l : List Nat,
      l.filterMap (fun i => if p (f i) then some (f i) else none) = (l.map f).filter p := by
  intro l
  induction l with
  | nil => rfl
  | cons a l ih =>
    by_cases hp : p (f a) <;>
      simp [List.filterMap_cons, List.filter_cons, hp, ih]

/-- pyPop on a non-empty list pops its last element. -/
theorem pyPop_eq (l : List α) (d : α) (h : l ≠ []) :
    pyPop l = some (l.dropLast, (l.getLast?).getD d) := by
  rw [pyPop]
  cases hx : l.getLast? with
  | none => exact absurd (List.getLast?_eq_none_iff.mp hx) h
  | some x => rfl

/-- Popping the last element of each of a list of non-empty rows succeeds and
produces the popped rows paired with their popped last elements. -/
theorem mapM_pyPop :
    ∀ l : Grid, (∀ row ∈ l, row ≠ []) →
      l.mapM pyPop = some (l.map (fun row => (row.dropLast, (row.getLast?).getD 0))) := by
  intro l
  induction l with
  | nil => intro _; rfl
  | cons a l ih =>
    intro h
    rw [List.mapM_cons, pyPop_eq a 0 (h a (by simp)),
      ih (fun row hr => h row (by simp [hr]))]
    rfl

/-- Unfolding of solve once both pops have succeeded. -/
theorem solve_eq (b b1 : Grid) (v : Row) (pairs : List (Row × Int))
    (h1 : pyPop b = some (b1, v)) (h2 : b1.mapM pyPop = some pairs) :
    solve b = ((pairs.map Prod.fst).get? 0).bind (fun row0 =>
      some ⟨pairs.map Prod.fst, pairs.map Prod.snd, v,
        (explore (pairs.map Prod.fst) (pairs.map Prod.fst) 0 row0.length
          (pairs.map Prod.snd) v).1,
        (explore (pairs.map Prod.fst) (pairs.map Prod.fst) 0 row0.length
          (pairs.map Prod.snd) v).2.isSome⟩) := by
  rw [solve, h1, Option.some_bind]
  show (b1.mapM pyPop).bind _ = _
  rw [h2, Option.some_bind]

/-! #### Theorems about the claims -/

/-- C1: the claim that every solution reported by explore on a well-formed
board satisfies all n column targets fails on the code: on the well-formed
1 x 2 board [[1,2]] with horz = [3] and vert = [1,5], explore reports the grid
[[1,2]] although its column 1 sums to 2, not to vert[1] = 5 — the leaf
validation loop of explore runs over range(len(solution)) = m columns instead
of n. -/
theorem explore_reports_unsound_solution :
    WellFormed [[1,2]] [3] [1,5] ∧
    (explore [[1,2]] [[1,2]] 0 2 [3] [1,5]).1 = [[[1,2]]] ∧
    vsum [[1,2]] 1 = some 2 ∧ ([1,5] : Row).getD 1 0 = 5 ∧ (2 : Int) ≠ 5 := by
  refine ⟨?_, rfl, rfl, rfl, by decide⟩
  refine ⟨by decide, by decide, ?_, rfl, ?_, ?_, ?_⟩ <;> decide

/-- C2: the claim that the grids reported by explore coincide, as a set, with
the brute-force reference on every well-formed board fails on the code: on the
well-formed board [[1,2]] with horz = [3] and vert = [1,5], explore reports
[[1,2]] while the brute-force reference over all 2 ^ (n * m) global
cell-selection combinations finds no valid grid at all, because explore's leaf
validation checks only the first m = 1 of the n = 2 columns. -/
theorem explore_disagrees_with_bruteforce :
    WellFormed [[1,2]] [3] [1,5] ∧
    (explore [[1,2]] [[1,2]] 0 2 [3] [1,5]).1 = [[[1,2]]] ∧
    bruteForce [[1,2]] [3] [1,5] 2 = [] := by
  refine ⟨?_, rfl, rfl⟩
  refine ⟨by decide, by decide, ?_, rfl, ?_, ?_, ?_⟩ <;> decide

/-- C3: the claim that explore never fails on a well-formed board fails on the
code: on the well-formed 2 x 1 board [[1],[1]] with horz = [1,1] and
vert = [2], explore raises an IndexError (embedded as the final state none,
with no solution reported): its leaf validation loop runs i over
range(len(solution)) = {0,1} and vsum(solution, 1) reads solution[0][1], which
does not exist. -/
theorem explore_fails_on_wellformed_board :
    WellFormed [[1],[1]] [1,1] [2] ∧
    (explore [[1],[1]] [[1],[1]] 0 1 [1,1] [2]).2 = none ∧
    (explore [[1],[1]] [[1],[1]] 0 1 [1,1] [2]).1 = [] := by
  refine ⟨?_, rfl, rfl⟩
  refine ⟨by decide, by decide, ?_, rfl, ?_, ?_, ?_⟩ <;> decide

/-- C4: for a row at least n wide, the candidate selections are generated by
running the mask i through 0 .. 2 ^ n - 1 in increasing numeric order (the
order of List.range), where the selection for mask i keeps brow[j] exactly at
the positions j whose bit j of i is set and is 0 elsewhere; being a pure
function of the row and target, the enumeration is deterministic. -/
theorem row_enumeration_spec (brow : Row) (n : Nat) (t : Int) (h : n ≤ brow.length) :
    (∀ i, buildRow brow i n = some (maskSpec brow i n)) ∧
    rowCandidates brow n t =
      ((List.range (2 ^ n)).map (fun i => maskSpec brow i n)).filter
        (fun row => decide (row.sum = t)) := by
  refine ⟨fun i => buildRow_spec brow i n h, ?_⟩
  rw [rowCandidates,
    ← filterMap_guard (fun i => maskSpec brow i n) (fun row => decide (row.sum = t))]
  refine List.filterMap_congr (fun i _ => ?_)
  rw [buildRow_spec brow i n h]
  simp

/-- Witness for C4 on the concrete row [3,5] with n = 2 and target 5. -/
theorem row_enumeration_spec_witness :
    (∀ i, buildRow [3,5] i 2 = some (maskSpec [3,5] i 2)) ∧
    rowCandidates [3,5] 2 5 =
      ((List.range (2 ^ 2)).map (fun i => maskSpec [3,5] i 2)).filter
        (fun row => decide (row.sum = 5)) :=
  row_enumeration_spec [3,5] 2 5 (by decide)

/-- C6: the selection invariant is preserved by the search — whenever explore
is entered with every already-filled slot below r holding a selection of
length n whose entries are each 0 or the board value at their position and
which sums to its row target, then every solution it goes on to report has all
of its board.length slots satisfying that same invariant: each slot write of
the search (line 34 of src/rullo.py) stores a masked row guarded by the row
sum test, and no later operation of the search disturbs a filled slot of the
active path. -/
theorem explore_selection_invariant (board solution : Grid) (horz vert : Row)
    (n r : Nat)
    (hlow : ∀ i, i < r → SlotInv board horz n i (solution.getD i [])) :
    ∀ s ∈ (explore board solution r n horz vert).1,
      ∀ i, i < board.length → SlotInv board horz n i (s.getD i []) :=
  exploreFuel_inv n (board.length - r) r ⟨board, horz, vert, solution⟩ board horz
    rfl rfl (by omega) hlow

/-- Witness for C6 at depth 0 (no slot filled yet) on a board with one
reported solution, instantiated at that solution and its slot 1. -/
theorem explore_selection_invariant_witness :
    SlotInv [[1,2],[3,4]] [3,7] 2 1 (([[1,2],[3,4]] : Grid).getD 1 []) :=
  explore_selection_invariant [[1,2],[3,4]] [[1,2],[3,4]] [3,7] [4,6] 2 0
    (fun i hi => absurd hi (Nat.not_lt_zero i))
    [[1,2],[3,4]] (by decide) 1 (by decide)

/-- C9: frame property of the search — whenever explore returns normally, the
final values of board, horz and vert equal the values they had at the call;
the recursion only ever assigns into the solution list. -/
theorem explore_frame (board solution : Grid) (r n : Nat) (horz vert : Row)
    (st2 : ExpSt) (h : (explore board solution r n horz vert).2 = some st2) :
    st2.board = board ∧ st2.horz = horz ∧ st2.vert = vert := by
  have hp := exploreFuel_state n (board.length - r) r ⟨board, horz, vert, solution⟩ st2 h
  exact ⟨hp.1, hp.2.1, hp.2.2.1⟩

/-- Witness for C9 on the board of the spec's end-to-end example, whose search
completes with the final solution state [[0,2],[0,4]] and no reported
solution. -/
theorem explore_frame_witness :
    (ExpSt.mk [[1,2],[3,4]] [2,4] [3,3] [[0,2],[0,4]]).board = [[1,2],[3,4]] ∧
    (ExpSt.mk [[1,2],[3,4]] [2,4] [3,3] [[0,2],[0,4]]).horz = [2,4] ∧
    (ExpSt.mk [[1,2],[3,4]] [2,4] [3,3] [[0,2],[0,4]]).vert = [3,3] :=
  explore_frame [[1,2],[3,4]] [[1,2],[3,4]] 0 2 [2,4] [3,3]
    (ExpSt.mk [[1,2],[3,4]] [2,4] [3,3] [[0,2],[0,4]]) (by rfl)

/-- C5: the row enumeration on the row [3,5] yields exactly the selection
[3,5] for target 8, exactly [0,5] for target 5, exactly [0,0] for target 0,
and exactly [3,0] for target 3. -/
theorem rowCandidates_concrete :
    rowCandidates [3,5] 2 8 = [[3,5]] ∧
    rowCandidates [3,5] 2 5 = [[0,5]] ∧
    rowCandidates [3,5] 2 0 = [[0,0]] ∧
    rowCandidates [3,5] 2 3 = [[3,0]] :=
  ⟨rfl, rfl, rfl, rfl⟩

/-- C7: determinism of solve — the embedding of solve is a pure function of
the board value, so two runs on value-identical inputs produce the same
outcome and, in particular, the same numbered output stream in the same
order. -/
theorem solve_deterministic (b1 b2 : Grid) (h : b1 = b2) :
    solve b1 = solve b2 ∧ solveNumbered b1 = solveNumbered b2 := by
  subst h; exact ⟨rfl, rfl⟩

/-- Witness for C7 at a concrete board that has a solution. -/
theorem solve_deterministic_witness :
    solve [[1,2,3],[3,4,7],[4,6,0]] = solve [[1,2,3],[3,4,7],[4,6,0]] ∧
    solveNumbered [[1,2,3],[3,4,7],[4,6,0]] =
      solveNumbered [[1,2,3],[3,4,7],[4,6,0]] :=
  solve_deterministic [[1,2,3],[3,4,7],[4,6,0]] [[1,2,3],[3,4,7],[4,6,0]] rfl

/-- C8 counterexample: on the malformed input [[1,2,3],[4,4],[0,0,0]], whose
rows do not all have equal length, solve does not fail fast at entry — it
extracts the targets, starts the recursion (the outcome is some), and the
IndexError only surfaces mid-recursion, while building a masked copy of the
short row [4] at depth 1 (completed = false). -/
theorem solve_no_entry_failfast_counterexample :
    ¬ (∀ row ∈ ([[1,2,3],[4,4],[0,0,0]] : Grid), row.length = 3) ∧
    (solve [[1,2,3],[4,4],[0,0,0]]).isSome = true ∧
    (solve [[1,2,3],[4,4],[0,0,0]]).map SolveOut.completed = some false := by
  exact ⟨by decide, rfl, rfl⟩

/-- C8 as amended: solve performs no malformed-input validation at all — for
every board with at least two rows, all non-empty, solve proceeds past entry
into the search regardless of whether the row lengths agree; a malformed
board is never rejected at entry, and any index failure it causes happens
mid-recursion (or it completes silently). -/
theorem solve_no_entry_check (b : Grid) (h2 : 2 ≤ b.length)
    (hrows : ∀ row ∈ b, row ≠ []) :
    (solve b).isSome = true := by
  have hne : b ≠ [] := List.ne_nil_of_length_pos (by omega)
  cases hd : b.dropLast with
  | nil =>
    exfalso
    have hlen := congrArg List.length hd
    simp [List.length_dropLast] at hlen
    omega
  | cons r0 rest =>
    have h1 : pyPop b = some (r0 :: rest, (b.getLast?).getD []) := by
      rw [← hd]
      exact pyPop_eq b [] hne
    have hmm : (r0 :: rest).mapM pyPop =
        some ((r0 :: rest).map (fun row => (row.dropLast, (row.getLast?).getD 0))) :=
      mapM_pyPop (r0 :: rest)
        (fun row hr => hrows row (List.mem_of_mem_dropLast (by rw [hd]; exact hr)))
    have hsolve := solve_eq b (r0 :: rest) ((b.getLast?).getD [])
      ((r0 :: rest).map (fun row => (row.dropLast, (row.getLast?).getD 0))) h1 hmm
    have hget : ((((r0 :: rest).map
          (fun row => (row.dropLast, (row.getLast?).getD 0))).map Prod.fst).get? 0)
        = some r0.dropLast := rfl
    rw [hget, Option.some_bind] at hsolve
    rw [hsolve]
    rfl

/-- Witness for the amended C8 at the malformed concrete input. -/
theorem solve_no_entry_check_witness :
    (solve [[1,2,3],[4,4],[0,0,0]]).isSome = true :=
  solve_no_entry_check [[1,2,3],[4,4],[0,0,0]] (by decide) (by decide)

/-- C10: solve destructively mutates its argument — for a board of m + 1 rows
(m at least 1) of uniform width n + 1, solve succeeds and afterwards the
caller's board object holds only the first m rows, each stripped of its last
element, so it has m rows of width n; the popped last row became the column
targets and the popped last elements of the remaining rows became the row
targets. -/
theorem solve_mutates_board (b : Grid) (m n : Nat)
    (hm : b.length = m + 1) (hm1 : 1 ≤ m)
    (hw : ∀ row ∈ b, row.length = n + 1) :
    ∃ out, solve b = some out ∧
      out.boardAfter = b.dropLast.map (fun row => row.dropLast) ∧
      out.boardAfter.length = m ∧
      (∀ row ∈ out.boardAfter, row.length = n) ∧
      out.vert = (b.getLast?).getD [] ∧
      out.horz = b.dropLast.map (fun row => (row.getLast?).getD 0) := by
  have hne : b ≠ [] := List.ne_nil_of_length_pos (by omega)
  cases hd : b.dropLast with
  | nil =>
    exfalso
    have hlen := congrArg List.length hd
    simp [List.length_dropLast] at hlen
    omega
  | cons r0 rest =>
    have h1 : pyPop b = some (r0 :: rest, (b.getLast?).getD []) := by
      rw [← hd]
      exact pyPop_eq b [] hne
    have hrows : ∀ row ∈ (r0 :: rest : Grid), row ≠ [] := by
      intro row hr
      have hmem : row ∈ b :=
        List.mem_of_mem_dropLast (by rw [hd]; exact hr)
      have := hw row hmem
      intro hnil
      rw [hnil] at this
      simp at this
    have hmm := mapM_pyPop (r0 :: rest) hrows
    have hsolve := solve_eq b (r0 :: rest) ((b.getLast?).getD [])
      ((r0 :: rest).map (fun row => (row.dropLast, (row.getLast?).getD 0))) h1 hmm
    have hget : ((((r0 :: rest).map
          (fun row => (row.dropLast, (row.getLast?).getD 0))).map Prod.fst).get? 0)
        = some r0.dropLast := rfl
    rw [hget, Option.some_bind] at hsolve
    refine ⟨_, hsolve, by simp [List.map_map], ?_, ?_, rfl, by simp [List.map_map]⟩
    · have hlen := congrArg List.length hd
      simp only [List.length_dropLast, hm, List.length_cons] at hlen
      simp only [SolveOut.boardAfter, List.length_map, List.length_cons]
      omega
    · intro row hr
      simp only [SolveOut.boardAfter] at hr
      rcases List.mem_map.mp hr with ⟨q, hq, rfl⟩
      rcases List.mem_map.mp hq with ⟨q2, hq2, rfl⟩
      have hmem : q2 ∈ b :=
        List.mem_of_mem_dropLast (by rw [hd]; exact hq2)
      have hlq := hw q2 hmem
      simp [List.length_dropLast, hlq]

/-- Witness for C10 at the concrete board [[1,2],[3,4]] with m = n = 1. -/
theorem solve_mutates_board_witness :
    ∃ out, solve [[1,2],[3,4]] = some out ∧
      out.boardAfter = ([[1,2],[3,4]] : Grid).dropLast.map (fun row => row.dropLast) ∧
      out.boardAfter.length = 1 ∧
      (∀ row ∈ out.boardAfter, row.length = 1) ∧
      out.vert = (([[1,2],[3,4]] : Grid).getLast?).getD [] ∧
      out.horz = ([[1,2],[3,4]] : Grid).dropLast.map (fun row => (row.getLast?).getD 0) :=
  solve_mutates_board [[1,2],[3,4]] 1 1 (by decide) (by decide) (by decide)

end Rullo
